import Mathlib

/-!
# Verification of the PhonePe statement analyzer core (src/app.py)

Shallow embedding of the transaction-extraction and daily-aggregation
pipeline of `src/app.py`:

* `clean_amount`      — the amount normalizer (app.py lines 10-21);
* `extractLine`       — one application of `line_pattern` (app.py line 36)
                        to a single text line plus the group extraction of
                        lines 50-64;
* `parse_phonepe_pdf` — the page/line loops of lines 39-67, taking the
                        already-extracted page texts as input (the PDF
                        engine is an external collaborator);
* `parseDate`         — `pd.to_datetime(..., format := a percent-b
                        percent-d percent-Y pattern, errors := coerce)`
                        of line 93, modelled as strptime on that format
                        followed by the pandas timestamp range check;
* `daily_credits`     — the filter/groupby/sum/sort of lines 96-104;
* `total_received`    — the grand total of line 109.

Strings are modelled as `List Char` (Python str, code-point sequences).
Machine floats are modelled as exact rationals `ℚ`; the claims under
check do not depend on binary rounding.  The regex character classes
are modelled at their ASCII fragment (plus the literal rupee sign);
theorems quantifying over arbitrary lines therefore carry an
ASCII-line hypothesis where the class membership matters.
-/

/-- Python `\s` / `str.isspace` on the ASCII range. -/
def isWS (c : Char) : Bool :=
  c = ' ' || c = '\t' || c = '\n' || c = '\r' || c = '\x0b' || c = '\x0c' ||
  c = '\x1c' || c = '\x1d' || c = '\x1e' || c = '\x1f'

/-- ASCII `[A-Z]`. -/
def isUpperAZ (c : Char) : Bool := 'A' ≤ c && c ≤ 'Z'

/-- ASCII `[a-z]`. -/
def isLowerAZ (c : Char) : Bool := 'a' ≤ c && c ≤ 'z'

/-- The class `[\d,]` of the amount capture group. -/
def digitComma (c : Char) : Bool := c.isDigit || c = ','

/-- A line (or token) whose characters are ASCII or the literal rupee
sign; on such strings the embedding of the regex character classes and
of `float` parsing is exact. -/
abbrev asciiOk (s : List Char) : Prop := ∀ c ∈ s, c.toNat < 128 ∨ c = '₹'

/-! ## Amount normalizer (`clean_amount`, app.py lines 10-21) -/

/-- `re.sub(r'[^\d.]', '', s)`: keep only digits and decimal points. -/
def keepDigitsDots (s : List Char) : List Char :=
  s.filter (fun c => c.isDigit || c = '.')

/-- Value of a digit string (leading zeros allowed). -/
def digitsVal (s : List Char) : ℕ :=
  s.foldl (fun a c => 10 * a + (c.toNat - 48)) 0

/-- Python `float(s)` accepts a digits-and-dots string iff it has at
least one digit and at most one dot. -/
def validCleanNum (s : List Char) : Bool :=
  (s.count '.' ≤ 1) && s.any (fun c => c.isDigit) &&
  s.all (fun c => c.isDigit || c = '.')

/-- Python `float` on a cleaned (digits-and-dots) string, as an exact
rational; `none` models the `ValueError`. -/
def floatOfClean (s : List Char) : Option ℚ :=
  if validCleanNum s then
    some ((digitsVal (s.takeWhile (fun c => c ≠ '.')) : ℚ) +
      (digitsVal ((s.dropWhile (fun c => c ≠ '.')).drop 1) : ℚ) /
        (10 : ℚ) ^ ((s.dropWhile (fun c => c ≠ '.')).drop 1).length)
  else none

/-- `clean_amount` (app.py lines 10-21): `None` and `""` are falsy and
return `0.0`; otherwise strip every character that is not a digit or a
dot and try `float`, returning `0.0` on `ValueError`. -/
def clean_amount (amount_str : Option (List Char)) : ℚ :=
  match amount_str with
  | none => 0
  | some s =>
    if s = [] then 0
    else
      match floatOfClean (keepDigitsDots s) with
      | some q => q
      | none => 0

/-! ## The line pattern (app.py line 36)

`^([A-Z][a-z]{2}\s\d{2},\s\d{4})\s{1}(.*)\s+(CREDIT|DEBIT)\s+₹([\d,]+)$`
applied with `re.search`; being anchored on both sides it either
matches the whole line or fails.  The leading date token is fixed
width, hence deterministic; the tail `(.*)\s+(CREDIT|DEBIT)\s+₹([\d,]+)$`
is resolved by the backtracking engine by trying the longest
description first (`.*` is greedy): for a given end of the
description, the direction token can only start right after the
maximal whitespace run (its first letter is not whitespace), the rupee
sign likewise, and the amount group must cover everything up to the
end of the line. -/

/-- The fixed-width head `([A-Z][a-z]{2}\s\d{2},\s\d{4})\s{1}`:
returns the 12-character date capture (group 1) and the remainder of
the line after the following single whitespace. -/
def dateTok12 (l : List Char) : Option (List Char × List Char) :=
  match l with
  | c0 :: c1 :: c2 :: c3 :: c4 :: c5 :: c6 :: c7 :: c8 :: c9 :: ca :: cb :: cc :: rest =>
    if isUpperAZ c0 && isLowerAZ c1 && isLowerAZ c2 && isWS c3 &&
       c4.isDigit && c5.isDigit && c6 = ',' && isWS c7 &&
       c8.isDigit && c9.isDigit && ca.isDigit && cb.isDigit && isWS cc
    then some ([c0, c1, c2, c3, c4, c5, c6, c7, c8, c9, ca, cb], rest)
    else none
  | _ => none

/-- `\s+₹([\d,]+)$` after the direction token: a nonempty whitespace
run, the rupee sign, then a nonempty run of digits/commas extending to
the end of the line; returns the amount capture (group 4). -/
def afterTypeCheck (s : List Char) : Option (List Char) :=
  if s.takeWhile isWS = [] then none
  else
    match s.dropWhile isWS with
    | '₹' :: a => if a ≠ [] && a.all digitComma then some a else none
    | _ => none

/-- `\s+(CREDIT|DEBIT)\s+₹([\d,]+)$` matched at a given end position of
the description: a nonempty whitespace run, then `CREDIT` (tried
first) or `DEBIT`, then `afterTypeCheck`; returns groups 3 and 4. -/
def tailCheck (s : List Char) : Option (List Char × List Char) :=
  if s.takeWhile isWS = [] then none
  else if (s.dropWhile isWS).take 6 = ("CREDIT".data) then
    (afterTypeCheck ((s.dropWhile isWS).drop 6)).map (fun a => (("CREDIT".data), a))
  else if (s.dropWhile isWS).take 5 = ("DEBIT".data) then
    (afterTypeCheck ((s.dropWhile isWS).drop 5)).map (fun a => (("DEBIT".data), a))
  else none

/-- Greedy resolution of `(.*)` in the tail: try the longest
description (`rest.take i`) first and shorten on failure.  Returns
(group 2 untrimmed, group 3, group 4). -/
def scanAux (rest : List Char) : ℕ → Option (List Char × List Char × List Char)
  | 0 =>
    match tailCheck rest with
    | some (t, a) => some ([], t, a)
    | none => none
  | i + 1 =>
    match tailCheck (rest.drop (i + 1)) with
    | some (t, a) => some (rest.take (i + 1), t, a)
    | none => scanAux rest i

/-- Match of the tail of the line, longest description first. -/
def scanGreedy (rest : List Char) : Option (List Char × List Char × List Char) :=
  scanAux rest rest.length

/-- Python `str.strip()`: drop whitespace from both ends. -/
def stripWS (s : List Char) : List Char :=
  ((s.dropWhile isWS).reverse.dropWhile isWS).reverse

/-- One row of the assembled data (app.py lines 59-64): the dict with
keys Date, Transaction Details, Type, Amount. -/
structure Rec where
  date : List Char
  details : List Char
  typ : List Char
  amount : ℚ
deriving DecidableEq, Repr

/-- One application of `line_pattern.search` plus the group extraction
of app.py lines 50-64: `none` when the line does not match. -/
def extractLine (line : List Char) : Option Rec :=
  match dateTok12 line with
  | none => none
  | some (dTok, rest) =>
    match scanGreedy rest with
    | none => none
    | some (d, t, a) =>
      some { date := dTok, details := stripWS d, typ := t,
             amount := clean_amount (some a) }

/-! ## Record assembly (app.py lines 39-67) -/

/-- `text.split('\n')` (keeps empty pieces). -/
def splitNlAux : List Char → List Char → List (List Char)
  | [], cur => [cur.reverse]
  | '\n' :: rest, cur => cur.reverse :: splitNlAux rest []
  | c :: rest, cur => splitNlAux rest (c :: cur)

/-- Python `str.split` on a newline. -/
def splitNl (s : List Char) : List (List Char) := splitNlAux s []

/-- The lines a page contributes: `page.extract_text()` returning
`None` or `""` is skipped (`if not text: continue`), otherwise the
text is split on newlines. -/
def pageLines : Option (List Char) → List (List Char)
  | none => []
  | some t => if t = [] then [] else splitNl t

/-- The page/line loops of `parse_phonepe_pdf` (app.py lines 39-67):
`data` starts empty and every matching line appends one row; the input
is the sequence of page texts handed over by the PDF engine. -/
def parse_phonepe_pdf (pages : List (Option (List Char))) : List Rec :=
  pages.foldl
    (fun data p =>
      (pageLines p).foldl
        (fun data line =>
          match extractLine line with
          | some r => data ++ [r]
          | none => data)
        data)
    []

/-- The `df.empty` test of app.py line 86: the branch that shows the
"No transactions found!" message. -/
def showsNoTransactions (pages : List (Option (List Char))) : Bool :=
  (parse_phonepe_pdf pages).isEmpty

/-! ## Date coercion (app.py line 93)

`pd.to_datetime(df['Date'], format='%b %d, %Y', errors='coerce')`:
strptime on the fixed format (month abbreviation matched
case-insensitively, whitespace in the format matching a nonempty
whitespace run, a 1-2 digit day in 1..31, a comma, exactly four year
digits, the whole string consumed, then calendar validation), with
out-of-range results for the nanosecond `Timestamp` type coerced to
`NaT` like any parse failure. -/

/-- A calendar date as parsed by the date coercion. -/
structure PDate where
  y : ℕ
  m : ℕ
  d : ℕ
deriving DecidableEq, Repr

/-- ASCII lower-casing, as the case-insensitive month match uses. -/
def lowerCh (c : Char) : Char :=
  if 'A' ≤ c ∧ c ≤ 'Z' then Char.ofNat (c.toNat + 32) else c

/-- The twelve month abbreviations of `%b` (C locale), in the order the
strptime alternation tries them. -/
def monthAbbrevs : List (List Char × ℕ) :=
  [(("jan".data), 1), (("feb".data), 2), (("mar".data), 3), (("apr".data), 4),
   (("may".data), 5), (("jun".data), 6), (("jul".data), 7), (("aug".data), 8),
   (("sep".data), 9), (("oct".data), 10), (("nov".data), 11), (("dec".data), 12)]

/-- Look the (lower-cased) abbreviation up. -/
def monthOf (l : List Char) : Option ℕ :=
  (monthAbbrevs.find? (fun p => p.1 = l)).map Prod.snd

/-- Case-insensitive month-abbreviation match. -/
def monthNum (c0 c1 c2 : Char) : Option ℕ :=
  monthOf [lowerCh c0, lowerCh c1, lowerCh c2]

/-- Gregorian leap year. -/
def isLeap (y : ℕ) : Bool := (y % 4 = 0 && y % 100 ≠ 0) || y % 400 = 0

/-- Days in a month. -/
def daysInMonth (y m : ℕ) : ℕ :=
  if m = 2 then (if isLeap y then 29 else 28)
  else if m = 4 ∨ m = 6 ∨ m = 9 ∨ m = 11 then 30
  else 31

/-- Calendar validation plus the pandas `Timestamp` range (datetime64
with nanoseconds reaches from 1677-09-22 to 2262-04-11 at midnight);
out-of-range values are coerced to `NaT`, i.e. `none`. -/
def mkValidDate (y m d : ℕ) : Option PDate :=
  if 1 ≤ y ∧ d ≤ daysInMonth y m ∧
     16770922 ≤ y * 10000 + m * 100 + d ∧ y * 10000 + m * 100 + d ≤ 22620411
  then some ⟨y, m, d⟩ else none

/-- The rest of the format after the day: `,`, whitespace run, exactly
four year digits, end of string, then validation. -/
def parseAfterDay (m day : ℕ) (s : List Char) : Option PDate :=
  if day = 0 ∨ 31 < day then none
  else
    match s with
    | ',' :: r =>
      if r.takeWhile isWS = [] then none
      else
        match r.dropWhile isWS with
        | [y1, y2, y3, y4] =>
          if y1.isDigit && y2.isDigit && y3.isDigit && y4.isDigit then
            mkValidDate (1000 * (y1.toNat - 48) + 100 * (y2.toNat - 48) +
              10 * (y3.toNat - 48) + (y4.toNat - 48)) m day
          else none
        | _ => none
    | _ => none

/-- strptime of one date string against `%b %d, %Y` followed by the
pandas range check; the model of app.py line 93 on one entry. -/
def parseDate (s : List Char) : Option PDate :=
  match s with
  | c0 :: c1 :: c2 :: rest =>
    match monthNum c0 c1 c2 with
    | none => none
    | some m =>
      if rest.takeWhile isWS = [] then none
      else
        match rest.dropWhile isWS with
        | d1 :: d2 :: r2 =>
          if d1.isDigit then
            if d2.isDigit then
              parseAfterDay m (10 * (d1.toNat - 48) + (d2.toNat - 48)) r2
            else parseAfterDay m (d1.toNat - 48) (d2 :: r2)
          else none
        | [d1] => if d1.isDigit then parseAfterDay m (d1.toNat - 48) [] else none
        | [] => none
  | _ => none

/-! ## Daily aggregation (app.py lines 96-109) -/

/-- Numeric key of a date; for `m, d < 100` it orders dates
chronologically. -/
def dkey (δ : PDate) : ℕ := δ.y * 10000 + δ.m * 100 + δ.d

/-- A decimal digit as a character. -/
def digCh (n : ℕ) : Char :=
  match n with
  | 0 => '0' | 1 => '1' | 2 => '2' | 3 => '3' | 4 => '4'
  | 5 => '5' | 6 => '6' | 7 => '7' | 8 => '8' | _ => '9'

/-- Two-digit zero-padded numeral. -/
def pad2 (n : ℕ) : List Char := [digCh (n / 10), digCh (n % 10)]

/-- Four-digit zero-padded numeral. -/
def pad4 (n : ℕ) : List Char :=
  [digCh (n / 1000), digCh (n / 100 % 10), digCh (n / 10 % 10), digCh (n % 10)]

/-- `strftime('%Y-%m-%d')` of app.py line 102. -/
def fmtDate (δ : PDate) : List Char :=
  pad4 δ.y ++ '-' :: (pad2 δ.m ++ '-' :: pad2 δ.d)

/-- Python string comparison: lexicographic on code points. -/
def strLt : List Char → List Char → Bool
  | _, [] => false
  | [], _ :: _ => true
  | a :: as, b :: bs =>
    if a.toNat < b.toNat then true
    else if b.toNat < a.toNat then false
    else strLt as bs

/-- The distinct group keys of `groupby('Date_Object')` on the CREDIT
rows (the groupby emits them in ascending key order; any order with
the same members gives the same final summary because `sort_values`
fixes the order below). -/
def creditKeys (recs : List Rec) : List PDate :=
  ((recs.filter (fun r => r.typ = ("CREDIT".data))).filterMap
    (fun r => parseDate r.date)).dedup

/-- The summed Amount of one date group (app.py line 99). -/
def groupSum (recs : List Rec) (δ : PDate) : ℚ :=
  (((recs.filter (fun r => r.typ = ("CREDIT".data))).filter
    (fun r => parseDate r.date = some δ)).map Rec.amount).sum

/-- The grouped frame of app.py line 99: one (date, summed amount) row
per distinct key. -/
def groupPairs (recs : List Rec) : List (PDate × ℚ) :=
  (creditKeys recs).map (fun δ => (δ, groupSum recs δ))

/-- One insertion step of the descending `sort_values(by='Date',
ascending=False)` of app.py line 103: the comparator is Python string
comparison of the `strftime('%Y-%m-%d')` column. -/
def insertDesc (p : PDate × ℚ) : List (PDate × ℚ) → List (PDate × ℚ)
  | [] => [p]
  | q :: qs =>
    if strLt (fmtDate q.1) (fmtDate p.1) then p :: q :: qs
    else q :: insertDesc p qs

/-- Sort the grouped rows descending by the formatted date string
(`sort_values` on distinct keys: any sorting algorithm gives this
unique result). -/
def sortDesc (l : List (PDate × ℚ)) : List (PDate × ℚ) :=
  l.foldr insertDesc []

/-- The Daily Summary rows in final order, with the parsed date still
attached to each row. -/
def dailySorted (recs : List Rec) : List (PDate × ℚ) :=
  sortDesc (groupPairs recs)

/-- `daily_credits` as displayed/exported (app.py lines 99-104): Date
as the formatted string, and the summed amount. -/
def daily_credits (recs : List Rec) : List (List Char × ℚ) :=
  (dailySorted recs).map (fun p => (fmtDate p.1, p.2))

/-- The grand total of app.py line 109: the sum of the Daily Summary
column. -/
def total_received (recs : List Rec) : ℚ :=
  ((daily_credits recs).map (fun p => p.2)).sum

/-- Proof apparatus: the summed Amount over one date group of an
arbitrary row list (so `groupSum recs δ` is `sumFor` of the CREDIT
rows). -/
def sumFor (l : List Rec) (δ : PDate) : ℚ :=
  ((l.filter (fun r => parseDate r.date = some δ)).map Rec.amount).sum

/-! ## Statement apparatus (predicates used only to state claims) -/

/-- The shape of `(.*)\s+(CREDIT|DEBIT)\s+₹([\d,]+)$` at one end
position of the description: the property that `tailCheck` decides. -/
def TailForm (s T A : List Char) : Prop :=
  ∃ w1 w2, s = w1 ++ T ++ w2 ++ '₹' :: A ∧
    w1 ≠ [] ∧ (∀ c ∈ w1, isWS c = true) ∧
    (T = ("CREDIT".data) ∨ T = ("DEBIT".data)) ∧
    w2 ≠ [] ∧ (∀ c ∈ w2, isWS c = true) ∧
    A ≠ [] ∧ A.all digitComma = true

/-- The date-token shape claimed by the spec (one uppercase letter,
exactly three lowercase letters, whitespace, two day digits, comma,
whitespace, four year digits).  Stated from the spec's words, to be
compared against the shape the code enforces. -/
def specDateShape3 (l : List Char) : Prop :=
  ∃ c0 c1 c2 c3 c4 c5 c6 c7 c8 c9 ca cb cc rest,
    l = c0 :: c1 :: c2 :: c3 :: c4 :: c5 :: c6 :: c7 :: c8 :: c9 :: ca :: cb :: cc :: rest ∧
    isUpperAZ c0 = true ∧ isLowerAZ c1 = true ∧ isLowerAZ c2 = true ∧
    isLowerAZ c3 = true ∧ isWS c4 = true ∧ c5.isDigit = true ∧ c6.isDigit = true ∧
    c7 = ',' ∧ isWS c8 = true ∧ c9.isDigit = true ∧ ca.isDigit = true ∧
    cb.isDigit = true ∧ cc.isDigit = true

/-- The date-token shape the code's pattern actually enforces (one
uppercase letter, exactly two lowercase letters, whitespace, two day
digits, comma, whitespace, four year digits, then one whitespace
before the description). -/
def codeDateShape2 (l : List Char) : Prop :=
  ∃ c0 c1 c2 c3 c4 c5 c6 c7 c8 c9 ca cb cc rest,
    l = c0 :: c1 :: c2 :: c3 :: c4 :: c5 :: c6 :: c7 :: c8 :: c9 :: ca :: cb :: cc :: rest ∧
    isUpperAZ c0 = true ∧ isLowerAZ c1 = true ∧ isLowerAZ c2 = true ∧
    isWS c3 = true ∧ c4.isDigit = true ∧ c5.isDigit = true ∧ c6 = ',' ∧
    isWS c7 = true ∧ c8.isDigit = true ∧ c9.isDigit = true ∧ ca.isDigit = true ∧
    cb.isDigit = true ∧ isWS cc = true

/-! ## Lemmas about the amount normalizer -/

theorem floatOfClean_nonneg {u : List Char} {q : ℚ} (h : floatOfClean u = some q) :
    0 ≤ q := by
  unfold floatOfClean at h
  split at h
  · rw [Option.some_inj] at h
    subst h
    positivity
  · exact absurd h (by simp)

theorem clean_amount_nonneg (s : Option (List Char)) : 0 ≤ clean_amount s := by
  rcases s with _ | t
  · simp [clean_amount]
  · simp only [clean_amount]
    by_cases ht : t = []
    · rw [if_pos ht]
    · rw [if_neg ht]
      cases hq : floatOfClean (keepDigitsDots t) with
      | none => exact le_refl (0 : ℚ)
      | some q => exact floatOfClean_nonneg hq

theorem takeWhile_all {p : Char → Bool} {u : List Char} (h : ∀ c ∈ u, p c = true) :
    u.takeWhile p = u ∧ u.dropWhile p = [] := by
  induction u with
  | nil => simp
  | cons a w ih =>
    have ha : p a = true := h a (by simp)
    have ih2 := ih (fun c hc => h c (by simp [hc]))
    simp [List.takeWhile_cons, List.dropWhile_cons, ha, ih2.1, ih2.2]

theorem clean_amount_digits {s : List Char} (h1 : keepDigitsDots s ≠ [])
    (h2 : (keepDigitsDots s).all Char.isDigit = true) :
    clean_amount (some s) = (digitsVal (keepDigitsDots s) : ℚ) := by
  have hs : s ≠ [] := by
    intro he
    subst he
    simp [keepDigitsDots] at h1
  have hall : ∀ c ∈ keepDigitsDots s, c.isDigit = true := by
    intro c hc
    exact List.all_eq_true.mp h2 c hc
  have hdot : '.' ∉ keepDigitsDots s := by
    intro hmem
    have := hall '.' hmem
    simp at this
  have hcount : (keepDigitsDots s).count '.' = 0 := List.count_eq_zero.mpr hdot
  have hvalid : validCleanNum (keepDigitsDots s) = true := by
    unfold validCleanNum
    simp only [Bool.and_eq_true, decide_eq_true_eq, List.any_eq_true, List.all_eq_true]
    refine ⟨⟨?_, ?_⟩, ?_⟩
    · rw [hcount]
      omega
    · rcases hne : keepDigitsDots s with _ | ⟨c, u⟩
      · exact absurd hne h1
      · refine ⟨c, by simp, ?_⟩
        have := hall c
        rw [hne] at this
        exact this (by simp)
    · intro x hx
      simp [hall x hx]
  have hnd : ∀ c ∈ keepDigitsDots s, (c ≠ '.' : Bool) = true := by
    intro c hc
    have := hall c hc
    simp only [ne_eq, decide_eq_true_eq]
    intro he
    subst he
    simp at this
  have hspan := takeWhile_all hnd
  simp only [clean_amount]
  rw [if_neg hs]
  simp only [floatOfClean]
  rw [if_pos hvalid]
  simp only [hspan.1, hspan.2, List.drop_nil, List.length_nil]
  norm_num [show digitsVal [] = 0 from rfl]

/-! ## Lemmas about the record assembler -/

theorem foldl_lines_eq (lines : List (List Char)) (acc : List Rec) :
    lines.foldl
      (fun data line =>
        match extractLine line with
        | some r => data ++ [r]
        | none => data)
      acc = acc ++ lines.filterMap extractLine := by
  induction lines generalizing acc with
  | nil => simp
  | cons l ls ih =>
    simp only [List.foldl_cons, List.filterMap_cons]
    cases h : extractLine l with
    | none => simp only [h]; rw [ih]
    | some r => simp only [h]; rw [ih, List.append_assoc]; rfl

theorem parse_phonepe_pdf_aux (pages : List (Option (List Char))) (acc : List Rec) :
    pages.foldl
      (fun data p =>
        (pageLines p).foldl
          (fun data line =>
            match extractLine line with
            | some r => data ++ [r]
            | none => data)
          data)
      acc = acc ++ (pages.flatMap pageLines).filterMap extractLine := by
  induction pages generalizing acc with
  | nil => simp
  | cons p ps ih =>
    simp only [List.foldl_cons, List.flatMap_cons, List.filterMap_append]
    rw [foldl_lines_eq, ih, List.append_assoc]

theorem parse_phonepe_pdf_eq (pages : List (Option (List Char))) :
    parse_phonepe_pdf pages = (pages.flatMap pageLines).filterMap extractLine := by
  unfold parse_phonepe_pdf
  rw [parse_phonepe_pdf_aux]
  simp

/-! ## Lemmas about the line pattern -/

theorem span_ws_append {w r : List Char} (hw : ∀ c ∈ w, isWS c = true)
    (hr : ∀ c l, r = c :: l → isWS c = false) :
    (w ++ r).takeWhile isWS = w ∧ (w ++ r).dropWhile isWS = r := by
  induction w with
  | nil =>
    cases r with
    | nil => simp
    | cons c l => simp [List.takeWhile_cons, List.dropWhile_cons, hr c l rfl]
  | cons a w ih =>
    have ha : isWS a = true := hw a (by simp)
    have ih2 := ih (fun c hc => hw c (by simp [hc]))
    simp [List.takeWhile_cons, List.dropWhile_cons, ha, ih2.1, ih2.2]

theorem tailCheck_of_form {s T A : List Char} (h : TailForm s T A) :
    tailCheck s = some (T, A) := by
  obtain ⟨w1, w2, rfl, hw1ne, hw1, hT, hw2ne, hw2, hAne, hA⟩ := h
  have hassoc : w1 ++ T ++ w2 ++ '₹' :: A = w1 ++ (T ++ (w2 ++ '₹' :: A)) := by
    simp [List.append_assoc]
  have hhead : ∀ c l, (T ++ (w2 ++ '₹' :: A)) = c :: l → isWS c = false := by
    intro c l hcl
    rcases hT with rfl | rfl
    · simp at hcl
      rw [← hcl.1]
      decide
    · simp at hcl
      rw [← hcl.1]
      decide
  have hspan1 := span_ws_append hw1 hhead
  have hspan2 :
      (w2 ++ '₹' :: A).takeWhile isWS = w2 ∧ (w2 ++ '₹' :: A).dropWhile isWS = '₹' :: A := by
    refine span_ws_append hw2 ?_
    intro c l hcl
    simp at hcl
    rw [← hcl.1]
    decide
  rw [hassoc]
  unfold tailCheck
  rw [hspan1.1, hspan1.2, if_neg hw1ne]
  rcases hT with rfl | rfl
  · have h6 : (("CREDIT".data) ++ (w2 ++ '₹' :: A)).take 6 = ("CREDIT".data) := by
      rw [show (6 : ℕ) = ("CREDIT".data).length from rfl]
      exact List.take_left ..
    have h6d : (("CREDIT".data) ++ (w2 ++ '₹' :: A)).drop 6 = w2 ++ '₹' :: A := by
      rw [show (6 : ℕ) = ("CREDIT".data).length from rfl]
      exact List.drop_left ..
    rw [if_pos h6, h6d]
    unfold afterTypeCheck
    rw [hspan2.1, hspan2.2, if_neg hw2ne]
    simp [hAne, hA]
  · rcases w2 with _ | ⟨wc, w2t⟩
    · exact absurd rfl hw2ne
    · have h6 : (("DEBIT".data) ++ (wc :: w2t ++ '₹' :: A)).take 6 ≠ ("CREDIT".data) := by
        simp
      have h5 : (("DEBIT".data) ++ (wc :: w2t ++ '₹' :: A)).take 5 = ("DEBIT".data) := by
        rw [show (5 : ℕ) = ("DEBIT".data).length from rfl]
        exact List.take_left ..
      have h5d : (("DEBIT".data) ++ (wc :: w2t ++ '₹' :: A)).drop 5 = wc :: w2t ++ '₹' :: A := by
        rw [show (5 : ℕ) = ("DEBIT".data).length from rfl]
        exact List.drop_left ..
      rw [if_neg h6, if_pos h5, h5d]
      unfold afterTypeCheck
      rw [hspan2.1, hspan2.2, if_neg hw2ne]
      simp [hAne, hA]

theorem afterTypeCheck_some {s A : List Char} (h : afterTypeCheck s = some A) :
    ∃ w2, s = w2 ++ '₹' :: A ∧ w2 ≠ [] ∧ (∀ c ∈ w2, isWS c = true) ∧
      A ≠ [] ∧ A.all digitComma = true := by
  have hs : s.takeWhile isWS ++ s.dropWhile isWS = s :=
    List.takeWhile_append_dropWhile isWS s
  unfold afterTypeCheck at h
  split at h
  · exact absurd h (by simp)
  · next hne =>
    split at h
    · next a heq =>
      split at h
      · next hcond =>
        rw [Option.some_inj] at h
        subst h
        simp only [Bool.and_eq_true, decide_eq_true_eq] at hcond
        refine ⟨s.takeWhile isWS, ?_, hne, fun c hc => List.mem_takeWhile_imp hc,
          hcond.1, hcond.2⟩
        rw [heq] at hs
        exact hs.symm
      · exact absurd h (by simp)
    · exact absurd h (by simp)

theorem tailCheck_some_form {s T A : List Char} (h : tailCheck s = some (T, A)) :
    TailForm s T A := by
  have hs : s.takeWhile isWS ++ s.dropWhile isWS = s :=
    List.takeWhile_append_dropWhile isWS s
  have hws : ∀ c ∈ s.takeWhile isWS, isWS c = true :=
    fun c hc => List.mem_takeWhile_imp hc
  unfold tailCheck at h
  split at h
  · exact absurd h (by simp)
  · next hne =>
    split at h
    · next h6 =>
      rcases hmap : afterTypeCheck ((s.dropWhile isWS).drop 6) with _ | a
      · rw [hmap] at h
        exact absurd h (by simp)
      · rw [hmap] at h
        simp only [Option.map_some', Option.some_inj, Prod.mk.injEq] at h
        obtain ⟨hT, hA⟩ := h
        subst hT
        subst hA
        obtain ⟨w2, hw2eq, hw2ne, hw2ws, hAne, hA⟩ := afterTypeCheck_some hmap
        refine ⟨s.takeWhile isWS, w2, ?_, hne, hws, Or.inl rfl, hw2ne, hw2ws, hAne, hA⟩
        have hsplit : s.dropWhile isWS = ("CREDIT".data) ++ (w2 ++ '₹' :: a) := by
          rw [← List.take_append_drop 6 (s.dropWhile isWS), h6, hw2eq]
        calc s = s.takeWhile isWS ++ s.dropWhile isWS := hs.symm
        _ = s.takeWhile isWS ++ (("CREDIT".data) ++ (w2 ++ '₹' :: a)) := by rw [hsplit]
        _ = s.takeWhile isWS ++ ("CREDIT".data) ++ w2 ++ '₹' :: a := by
              simp [List.append_assoc]
    · split at h
      · next h5 =>
        rcases hmap : afterTypeCheck ((s.dropWhile isWS).drop 5) with _ | a
        · rw [hmap] at h
          exact absurd h (by simp)
        · rw [hmap] at h
          simp only [Option.map_some', Option.some_inj, Prod.mk.injEq] at h
          obtain ⟨hT, hA⟩ := h
          subst hT
          subst hA
          obtain ⟨w2, hw2eq, hw2ne, hw2ws, hAne, hA⟩ := afterTypeCheck_some hmap
          refine ⟨s.takeWhile isWS, w2, ?_, hne, hws, Or.inr rfl, hw2ne, hw2ws, hAne, hA⟩
          have hsplit : s.dropWhile isWS = ("DEBIT".data) ++ (w2 ++ '₹' :: a) := by
            rw [← List.take_append_drop 5 (s.dropWhile isWS), h5, hw2eq]
          calc s = s.takeWhile isWS ++ s.dropWhile isWS := hs.symm
          _ = s.takeWhile isWS ++ (("DEBIT".data) ++ (w2 ++ '₹' :: a)) := by rw [hsplit]
          _ = s.takeWhile isWS ++ ("DEBIT".data) ++ w2 ++ '₹' :: a := by
                simp [List.append_assoc]
      · exact absurd h (by simp)

theorem scanAux_some {rest : List Char} :
    ∀ {i D T A}, scanAux rest i = some (D, T, A) →
      ∃ j, j ≤ i ∧ D = rest.take j ∧ tailCheck (rest.drop j) = some (T, A) ∧
        ∀ k, j < k → k ≤ i → tailCheck (rest.drop k) = none := by
  intro i
  induction i with
  | zero =>
    intro D T A h
    unfold scanAux at h
    rcases htc : tailCheck rest with _ | ⟨t, a⟩
    · simp only [htc] at h
      exact absurd h (by simp)
    · simp only [htc, Option.some_inj, Prod.mk.injEq] at h
      obtain ⟨h1, h2, h3⟩ := h
      subst h1
      subst h2
      subst h3
      refine ⟨0, le_refl 0, by simp, by rw [List.drop_zero]; exact htc, ?_⟩
      intro k hk1 hk2
      omega
  | succ i ih =>
    intro D T A h
    unfold scanAux at h
    rcases htc : tailCheck (rest.drop (i + 1)) with _ | ⟨t, a⟩
    · simp only [htc] at h
      obtain ⟨j, hj1, hj2, hj3, hj4⟩ := ih h
      refine ⟨j, by omega, hj2, hj3, ?_⟩
      intro k hk1 hk2
      rcases Nat.lt_or_ge k (i + 1) with hk | hk
      · exact hj4 k hk1 (by omega)
      · have hke : k = i + 1 := by omega
        rw [hke]
        exact htc
    · simp only [htc, Option.some_inj, Prod.mk.injEq] at h
      obtain ⟨h1, h2, h3⟩ := h
      subst h1
      subst h2
      subst h3
      refine ⟨i + 1, le_refl _, rfl, ?_, ?_⟩
      · exact htc
      · intro k hk1 hk2
        omega

theorem dateTok12_some {l dTok rest : List Char} (h : dateTok12 l = some (dTok, rest)) :
    ∃ c0 c1 c2 c3 c4 c5 c6 c7 c8 c9 ca cb cc,
      l = c0 :: c1 :: c2 :: c3 :: c4 :: c5 :: c6 :: c7 :: c8 :: c9 :: ca :: cb :: cc :: rest ∧
      dTok = [c0, c1, c2, c3, c4, c5, c6, c7, c8, c9, ca, cb] ∧
      isUpperAZ c0 = true ∧ isLowerAZ c1 = true ∧ isLowerAZ c2 = true ∧
      isWS c3 = true ∧ c4.isDigit = true ∧ c5.isDigit = true ∧ c6 = ',' ∧
      isWS c7 = true ∧ c8.isDigit = true ∧ c9.isDigit = true ∧ ca.isDigit = true ∧
      cb.isDigit = true ∧ isWS cc = true := by
  rw [dateTok12.eq_def] at h
  split at h
  · next c0 c1 c2 c3 c4 c5 c6 c7 c8 c9 ca cb cc tl =>
    split at h
    · next hcond =>
      rw [Option.some_inj, Prod.mk.injEq] at h
      obtain ⟨hdt, hrest⟩ := h
      subst hrest
      simp only [Bool.and_eq_true, decide_eq_true_eq] at hcond
      exact ⟨c0, c1, c2, c3, c4, c5, c6, c7, c8, c9, ca, cb, cc, rfl, hdt.symm,
        hcond.1.1.1.1.1.1.1.1.1.1.1.1, hcond.1.1.1.1.1.1.1.1.1.1.1.2,
        hcond.1.1.1.1.1.1.1.1.1.1.2, hcond.1.1.1.1.1.1.1.1.1.2,
        hcond.1.1.1.1.1.1.1.1.2, hcond.1.1.1.1.1.1.1.2, hcond.1.1.1.1.1.1.2,
        hcond.1.1.1.1.1.2, hcond.1.1.1.1.2, hcond.1.1.1.2, hcond.1.1.2,
        hcond.1.2, hcond.2⟩
    · exact absurd h (by simp)
  · exact absurd h (by simp)

/-- Full characterization of a successful line match: the line splits
into the date head, one whitespace, a description `D`, and a tail of
the `TailForm` shape, and `D` is the longest among all such splits
(the greedy `(.*)`). -/
theorem extractLine_some {line : List Char} {r : Rec} (h : extractLine line = some r) :
    ∃ dTok cc rest D s A,
      line = dTok ++ cc :: rest ∧ dTok.length = 12 ∧ isWS cc = true ∧
      rest = D ++ s ∧ TailForm s r.typ A ∧
      r.date = dTok ∧ r.details = stripWS D ∧ r.amount = clean_amount (some A) ∧
      ∀ D2 s2 T2 A2, rest = D2 ++ s2 → TailForm s2 T2 A2 → D2.length ≤ D.length := by
  unfold extractLine at h
  rcases hdt : dateTok12 line with _ | ⟨dTok, rest⟩
  · simp only [hdt] at h
    exact absurd h (by simp)
  · simp only [hdt] at h
    rcases hscan : scanGreedy rest with _ | ⟨D, T, A⟩
    · simp only [hscan] at h
      exact absurd h (by simp)
    · simp only [hscan, Option.some_inj] at h
      subst h
      obtain ⟨j, hj1, hj2, hj3, hj4⟩ := scanAux_some hscan
      obtain ⟨c0, c1, c2, c3, c4, c5, c6, c7, c8, c9, ca, cb, cc, hline, hdtok, hconds⟩ :=
        dateTok12_some hdt
      have hjlen : (rest.take j).length = j := by
        rw [List.length_take]
        have hle : j ≤ rest.length := le_trans hj1 (le_refl _)
        omega
      refine ⟨dTok, cc, rest, rest.take j, rest.drop j, A, ?_, ?_, ?_, ?_, ?_, rfl, ?_, rfl, ?_⟩
      · rw [hline, hdtok]
        simp
      · rw [hdtok]
        simp
      · exact hconds.2.2.2.2.2.2.2.2.2.2.2.2
      · exact (List.take_append_drop j rest).symm
      · exact tailCheck_some_form hj3
      · rw [hj2]
      · intro D2 s2 T2 A2 hsplit htf
        by_contra hgt
        push_neg at hgt
        rw [hjlen] at hgt
        have hk2 : D2.length ≤ rest.length := by
          rw [hsplit, List.length_append]
          omega
        have hnone : tailCheck (rest.drop D2.length) = none := hj4 D2.length hgt hk2
        have hdrop : rest.drop D2.length = s2 := by
          rw [hsplit]
          simp [List.drop_left]
        rw [hdrop] at hnone
        rw [tailCheck_of_form htf] at hnone
        exact absurd hnone (by simp)

/-- The amount capture of a matching line (digits and commas) is
normalized to the value of its digit characters: an integer. -/
theorem clean_amount_digitComma {A : List Char} (hA : A.all digitComma = true) :
    clean_amount (some A) = ((digitsVal (keepDigitsDots A) : ℕ) : ℚ) := by
  have hsub : ∀ c ∈ keepDigitsDots A, c.isDigit = true := by
    intro c hc
    unfold keepDigitsDots at hc
    rw [List.mem_filter] at hc
    have hmem := List.all_eq_true.mp hA c hc.1
    rcases (show c.isDigit = true ∨ c = ',' by simpa [digitComma] using hmem) with hd | hcomma
    · exact hd
    · rcases (show c.isDigit = true ∨ c = '.' by simpa using hc.2) with hd | hdot
      · exact hd
      · subst hcomma
        exact absurd hdot (by decide)
  by_cases hne : keepDigitsDots A = []
  · rcases hAe : A with _ | ⟨c, t⟩
    · simp [clean_amount, hne, hAe, keepDigitsDots, digitsVal]
    · rw [← hAe]
      have hAne : A ≠ [] := by
        rw [hAe]
        simp
      simp only [clean_amount]
      rw [if_neg hAne]
      have : floatOfClean (keepDigitsDots A) = none := by
        unfold floatOfClean
        rw [if_neg]
        rw [hne]
        decide
      rw [this, hne]
      simp [digitsVal]
  · have := clean_amount_digits hne (List.all_eq_true.mpr hsub)
    exact this

/-! ## Lemmas about the daily aggregation -/

theorem insertDesc_perm (p : PDate × ℚ) (l : List (PDate × ℚ)) :
    (insertDesc p l).Perm (p :: l) := by
  induction l with
  | nil => exact List.Perm.refl _
  | cons q qs ih =>
    unfold insertDesc
    split
    · exact List.Perm.refl _
    · exact (ih.cons q).trans (List.Perm.swap p q qs)

theorem sortDesc_perm (l : List (PDate × ℚ)) : (sortDesc l).Perm l := by
  induction l with
  | nil => exact List.Perm.refl _
  | cons x xs ih =>
    have : sortDesc (x :: xs) = insertDesc x (sortDesc xs) := rfl
    rw [this]
    exact (insertDesc_perm x (sortDesc xs)).trans (ih.cons x)

theorem sumFor_cons (x : Rec) (l : List Rec) (δ : PDate) :
    sumFor (x :: l) δ =
      (if parseDate x.date = some δ then x.amount else 0) + sumFor l δ := by
  unfold sumFor
  rw [List.filter_cons]
  by_cases hx : parseDate x.date = some δ
  · simp [hx]
  · simp [hx]

theorem key_sum_peel (K : List PDate) (hK : K.Nodup) (x : Rec) (l : List Rec) :
    (K.map (sumFor (x :: l))).sum =
      (match parseDate x.date with
       | some δ => if δ ∈ K then x.amount else 0
       | none => 0) + (K.map (sumFor l)).sum := by
  induction K with
  | nil =>
    cases hx : parseDate x.date <;> simp [hx]
  | cons δ K ih =>
    have hδ : δ ∉ K := (List.nodup_cons.mp hK).1
    have ihK := ih (List.nodup_cons.mp hK).2
    simp only [List.map_cons, List.sum_cons, sumFor_cons, ihK]
    cases hx : parseDate x.date with
    | none =>
      simp [hx]
    | some δ0 =>
      by_cases hin : δ0 = δ
      · subst hin
        simp [hx, hδ]
        try ring
      · by_cases hmem : δ0 ∈ K
        · simp [hx, hin, hmem]
          try ring
        · simp [hx, hin, hmem]
          try ring

theorem key_sum_total (l : List Rec) :
    ∀ K : List PDate, K.Nodup →
      (∀ x ∈ l, ∀ δ, parseDate x.date = some δ → δ ∈ K) →
      (K.map (sumFor l)).sum =
        ((l.filter (fun r => (parseDate r.date).isSome)).map Rec.amount).sum := by
  induction l with
  | nil =>
    intro K hK hcov
    have : ∀ q ∈ K.map (sumFor []), q = 0 := by
      intro q hq
      rw [List.mem_map] at hq
      obtain ⟨δ, hδ, hq⟩ := hq
      rw [← hq]
      simp [sumFor]
    rw [List.sum_eq_zero this]
    simp
  | cons x l ih =>
    intro K hK hcov
    rw [key_sum_peel K hK]
    rw [ih K hK (fun y hy δ hδ => hcov y (List.mem_cons_of_mem x hy) δ hδ)]
    rw [List.filter_cons]
    cases hx : parseDate x.date with
    | none => simp [hx]
    | some δ0 =>
      have hmem : δ0 ∈ K := hcov x (List.mem_cons_self x l) δ0 hx
      simp [hx, hmem]

theorem total_received_eq (recs : List Rec) :
    total_received recs =
      ((recs.filter
        (fun r => r.typ = ("CREDIT".data) && (parseDate r.date).isSome)).map
          Rec.amount).sum := by
  unfold total_received daily_credits
  rw [List.map_map]
  have h1 : ((dailySorted recs).map
      ((fun (p : List Char × ℚ) => p.2) ∘ (fun p => (fmtDate p.1, p.2)))).sum =
      ((groupPairs recs).map Prod.snd).sum := by
    have hperm := (sortDesc_perm (groupPairs recs)).map
      ((fun (p : List Char × ℚ) => p.2) ∘ (fun p => (fmtDate p.1, p.2)))
    unfold dailySorted
    exact hperm.sum_eq
  rw [h1]
  unfold groupPairs
  rw [List.map_map]
  have h2 : (Prod.snd ∘ fun δ => (δ, groupSum recs δ)) = groupSum recs := rfl
  rw [h2]
  have h3 : groupSum recs = sumFor (recs.filter (fun r => r.typ = ("CREDIT".data))) := rfl
  rw [h3]
  rw [key_sum_total _ (creditKeys recs) (List.nodup_dedup _) ?cover]
  case cover =>
    intro x hx δ hδ
    unfold creditKeys
    rw [List.mem_dedup, List.mem_filterMap]
    exact ⟨x, hx, hδ⟩
  rw [List.filter_filter]
  refine congrArg _ (congrArg _ (List.filter_congr ?_))
  intro x hx
  rw [Bool.and_comm]

/-! ## Lemmas about date formatting and the string order -/

theorem digCh_toNat {n : ℕ} (h : n < 10) : (digCh n).toNat = 48 + n := by
  interval_cases n <;> rfl

theorem strLt_cons_eq (a b : Char) (s t : List Char) :
    strLt (a :: s) (b :: t) =
      if a.toNat < b.toNat then true
      else if b.toNat < a.toNat then false
      else strLt s t := rfl

theorem strLt_pad2 {a b : ℕ} (ha : a < 100) (hb : b < 100) (s t : List Char) :
    strLt (pad2 a ++ s) (pad2 b ++ t) =
      (decide (a < b) || (decide (a = b) && strLt s t)) := by
  have h1 : a / 10 < 10 := by omega
  have h2 : a % 10 < 10 := by omega
  have h3 : b / 10 < 10 := by omega
  have h4 : b % 10 < 10 := by omega
  show strLt (digCh (a / 10) :: digCh (a % 10) :: s) (digCh (b / 10) :: digCh (b % 10) :: t) = _
  rw [strLt_cons_eq, strLt_cons_eq, digCh_toNat h1, digCh_toNat h2, digCh_toNat h3,
    digCh_toNat h4]
  split_ifs with hc1 hc2 hc3 hc4
  · have hab : a < b := by omega
    simp [hab]
  · have hab1 : ¬a < b := by omega
    have hab2 : ¬a = b := by omega
    simp [hab1, hab2]
  · have hab : a < b := by omega
    simp [hab]
  · have hab1 : ¬a < b := by omega
    have hab2 : ¬a = b := by omega
    simp [hab1, hab2]
  · have hab : a = b := by omega
    subst hab
    simp

theorem pad4_eq (n : ℕ) : pad4 n = pad2 (n / 100) ++ pad2 (n % 100) := by
  have h1 : n / 1000 = n / 100 / 10 := by omega
  have h3 : n / 10 % 10 = n % 100 / 10 := by omega
  have h4 : n % 10 = n % 100 % 10 := by omega
  simp [pad4, pad2, h1, h3, h4]

theorem strLt_pad4 {a b : ℕ} (ha : a < 10000) (hb : b < 10000) (s t : List Char) :
    strLt (pad4 a ++ s) (pad4 b ++ t) =
      (decide (a < b) || (decide (a = b) && strLt s t)) := by
  rw [pad4_eq a, pad4_eq b, List.append_assoc, List.append_assoc,
    strLt_pad2 (by omega : a / 100 < 100) (by omega : b / 100 < 100),
    strLt_pad2 (by omega : a % 100 < 100) (by omega : b % 100 < 100)]
  cases hst : strLt s t
  · simp only [Bool.and_false, Bool.or_false, ← Bool.decide_and, ← Bool.decide_or]
    rw [decide_eq_decide]
    omega
  · simp only [Bool.and_true, ← Bool.decide_and, ← Bool.decide_or]
    rw [decide_eq_decide]
    omega

theorem strLt_pad2_nil {a b : ℕ} (ha : a < 100) (hb : b < 100) :
    strLt (pad2 a) (pad2 b) = decide (a < b) := by
  have h := strLt_pad2 ha hb [] []
  rw [List.append_nil, List.append_nil] at h
  rw [h, show strLt ([] : List Char) [] = false from rfl]
  simp

theorem strLt_fmtDate {δ1 δ2 : PDate} (h1 : δ1.y < 10000) (h2 : δ1.m < 100)
    (h3 : δ1.d < 100) (h4 : δ2.y < 10000) (h5 : δ2.m < 100) (h6 : δ2.d < 100) :
    strLt (fmtDate δ1) (fmtDate δ2) = true ↔ dkey δ1 < dkey δ2 := by
  unfold fmtDate
  rw [strLt_pad4 h1 h4]
  have hdash : ∀ x y : List Char, strLt ('-' :: x) ('-' :: y) = strLt x y := by
    intro x y
    rw [strLt_cons_eq]
    simp
  rw [hdash, strLt_pad2 h2 h5, hdash, strLt_pad2_nil h3 h6]
  simp only [Bool.or_eq_true, Bool.and_eq_true, decide_eq_true_eq]
  unfold dkey
  omega

/-! ## Lemmas about the date coercion -/

theorem mkValidDate_some {y m d : ℕ} {δ : PDate} (h : mkValidDate y m d = some δ) :
    δ.y = y ∧ δ.m = m ∧ δ.d = d ∧ y < 10000 := by
  unfold mkValidDate at h
  split at h
  · next hcond =>
    rw [Option.some_inj] at h
    subst h
    refine ⟨rfl, rfl, rfl, ?_⟩
    omega
  · exact absurd h (by simp)

theorem parseAfterDay_some {m day : ℕ} {s : List Char} {δ : PDate}
    (h : parseAfterDay m day s = some δ) :
    δ.m = m ∧ δ.d = day ∧ day < 100 ∧ δ.y < 10000 := by
  unfold parseAfterDay at h
  split at h
  · exact absurd h (by simp)
  · next hday =>
    push_neg at hday
    split at h
    · split at h
      · exact absurd h (by simp)
      · split at h
        · split at h
          · obtain ⟨hy, hm, hd, hbound⟩ := mkValidDate_some h
            exact ⟨hm, hd, by omega, by omega⟩
          · exact absurd h (by simp)
        · exact absurd h (by simp)
    · exact absurd h (by simp)

theorem monthOf_some {l : List Char} {m : ℕ} (h : monthOf l = some m) :
    1 ≤ m ∧ m ≤ 12 := by
  unfold monthOf at h
  rcases hf : monthAbbrevs.find? (fun p => p.1 = l) with _ | p
  · rw [hf] at h
    exact absurd h (by simp)
  · rw [hf] at h
    simp only [Option.map_some', Option.some_inj] at h
    subst h
    have hm := List.mem_of_find?_eq_some hf
    have hall : ∀ q ∈ monthAbbrevs, 1 ≤ q.2 ∧ q.2 ≤ 12 := by decide
    exact hall p hm

theorem monthNum_some {c0 c1 c2 : Char} {m : ℕ} (h : monthNum c0 c1 c2 = some m) :
    1 ≤ m ∧ m ≤ 12 :=
  monthOf_some h

theorem parseDate_bounds {s : List Char} {δ : PDate} (h : parseDate s = some δ) :
    δ.y < 10000 ∧ δ.m < 100 ∧ δ.d < 100 := by
  unfold parseDate at h
  split at h
  · next c0 c1 c2 rest =>
    rcases hm : monthNum c0 c1 c2 with _ | m
    · rw [hm] at h
      exact absurd h (by simp)
    · simp only [hm] at h
      have hm12 := monthNum_some hm
      split at h
      · exact absurd h (by simp)
      · split at h
        · split at h
          · split at h
            · obtain ⟨hmm, hdd, hdb, hyb⟩ := parseAfterDay_some h
              exact ⟨hyb, by omega, by omega⟩
            · obtain ⟨hmm, hdd, hdb, hyb⟩ := parseAfterDay_some h
              exact ⟨hyb, by omega, by omega⟩
          · exact absurd h (by simp)
        · split at h
          · obtain ⟨hmm, hdd, hdb, hyb⟩ := parseAfterDay_some h
            exact ⟨hyb, by omega, by omega⟩
          · exact absurd h (by simp)
        · exact absurd h (by simp)
  · exact absurd h (by simp)

/-! ## Lemmas about the descending sort of the Daily Summary -/

theorem insertDesc_mem {p x : PDate × ℚ} {l : List (PDate × ℚ)} :
    x ∈ insertDesc p l ↔ x = p ∨ x ∈ l := by
  induction l with
  | nil => simp [insertDesc]
  | cons q qs ih =>
    unfold insertDesc
    split
    · simp [List.mem_cons]
    · simp only [List.mem_cons, ih]
      tauto

theorem insertDesc_pairwise {p : PDate × ℚ} {l : List (PDate × ℚ)}
    (hvp : p.1.y < 10000 ∧ p.1.m < 100 ∧ p.1.d < 100)
    (hvl : ∀ x ∈ l, x.1.y < 10000 ∧ x.1.m < 100 ∧ x.1.d < 100)
    (hne : ∀ x ∈ l, dkey x.1 ≠ dkey p.1)
    (h : l.Pairwise (fun a b => dkey b.1 < dkey a.1)) :
    (insertDesc p l).Pairwise (fun a b => dkey b.1 < dkey a.1) := by
  induction l with
  | nil => simp [insertDesc]
  | cons q qs ih =>
    have hvq := hvl q (by simp)
    have hq := hne q (by simp)
    obtain ⟨hq1, hq2⟩ := List.pairwise_cons.mp h
    unfold insertDesc
    split
    · next hlt =>
      have hqp : dkey q.1 < dkey p.1 :=
        (strLt_fmtDate hvq.1 hvq.2.1 hvq.2.2 hvp.1 hvp.2.1 hvp.2.2).mp hlt
      rw [List.pairwise_cons]
      refine ⟨?_, h⟩
      intro y hy
      rcases List.mem_cons.mp hy with rfl | hy2
      · exact hqp
      · exact lt_trans (hq1 y hy2) hqp
    · next hnlt =>
      have hpq : dkey p.1 < dkey q.1 := by
        have hiff := strLt_fmtDate hvq.1 hvq.2.1 hvq.2.2 hvp.1 hvp.2.1 hvp.2.2
        have hnot : ¬dkey q.1 < dkey p.1 := fun hc => hnlt (hiff.mpr hc)
        omega
      rw [List.pairwise_cons]
      refine ⟨?_, ih (fun x hx => hvl x (by simp [hx])) (fun x hx => hne x (by simp [hx])) hq2⟩
      intro y hy
      rcases insertDesc_mem.mp hy with rfl | hy2
      · exact hpq
      · exact hq1 y hy2

theorem sortDesc_pairwise {l : List (PDate × ℚ)}
    (hv : ∀ x ∈ l, x.1.y < 10000 ∧ x.1.m < 100 ∧ x.1.d < 100)
    (hnd : (l.map (fun x => dkey x.1)).Nodup) :
    (sortDesc l).Pairwise (fun a b => dkey b.1 < dkey a.1) := by
  induction l with
  | nil => simp [sortDesc]
  | cons x xs ih =>
    have hs : sortDesc (x :: xs) = insertDesc x (sortDesc xs) := rfl
    rw [hs]
    have hnd2 := hnd
    rw [List.map_cons, List.nodup_cons] at hnd2
    refine insertDesc_pairwise (hv x (by simp)) ?_ ?_
      (ih (fun y hy => hv y (by simp [hy])) hnd2.2)
    · intro y hy
      have hmem : y ∈ xs := ((sortDesc_perm xs).mem_iff).mp hy
      exact hv y (by simp [hmem])
    · intro y hy
      have hmem : y ∈ xs := ((sortDesc_perm xs).mem_iff).mp hy
      intro hcon
      exact hnd2.1 (hcon ▸ List.mem_map_of_mem _ hmem)

theorem creditKeys_bounds {recs : List Rec} {δ : PDate} (h : δ ∈ creditKeys recs) :
    δ.y < 10000 ∧ δ.m < 100 ∧ δ.d < 100 := by
  unfold creditKeys at h
  rw [List.mem_dedup, List.mem_filterMap] at h
  obtain ⟨r, _, hr⟩ := h
  exact parseDate_bounds hr

theorem groupPairs_valid {recs : List Rec} :
    ∀ x ∈ groupPairs recs, x.1.y < 10000 ∧ x.1.m < 100 ∧ x.1.d < 100 := by
  intro x hx
  unfold groupPairs at hx
  rw [List.mem_map] at hx
  obtain ⟨δ, hδ, rfl⟩ := hx
  exact creditKeys_bounds hδ

theorem groupPairs_keys_nodup {recs : List Rec} :
    ((groupPairs recs).map (fun x => dkey x.1)).Nodup := by
  unfold groupPairs
  rw [List.map_map]
  have hcomp : ((fun x : PDate × ℚ => dkey x.1) ∘ fun δ => (δ, groupSum recs δ)) =
      fun δ => dkey δ := rfl
  rw [hcomp]
  refine List.Nodup.map_on ?_ (List.nodup_dedup _)
  intro δ1 h1 δ2 h2 heq
  have b1 := creditKeys_bounds h1
  have b2 := creditKeys_bounds h2
  cases δ1
  cases δ2
  unfold dkey at heq
  simp only at heq b1 b2
  rw [PDate.mk.injEq]
  refine ⟨?_, ?_, ?_⟩ <;> omega

theorem dailySorted_pairwise (recs : List Rec) :
    (dailySorted recs).Pairwise (fun a b => dkey b.1 < dkey a.1) := by
  unfold dailySorted
  exact sortDesc_pairwise groupPairs_valid groupPairs_keys_nodup

theorem dailySorted_mem_keys {recs : List Rec} {δ : PDate} :
    δ ∈ (dailySorted recs).map Prod.fst ↔
      ∃ r ∈ recs, r.typ = ("CREDIT".data) ∧ parseDate r.date = some δ := by
  unfold dailySorted
  rw [List.mem_map]
  constructor
  · rintro ⟨p, hp, rfl⟩
    have hgp : p ∈ groupPairs recs := (sortDesc_perm _).mem_iff.mp hp
    unfold groupPairs at hgp
    rw [List.mem_map] at hgp
    obtain ⟨δ0, hδ0, rfl⟩ := hgp
    unfold creditKeys at hδ0
    rw [List.mem_dedup, List.mem_filterMap] at hδ0
    obtain ⟨r, hr, hpr⟩ := hδ0
    rw [List.mem_filter] at hr
    refine ⟨r, hr.1, ?_, hpr⟩
    simpa using hr.2
  · rintro ⟨r, hr, htyp, hpd⟩
    refine ⟨(δ, groupSum recs δ), ?_, rfl⟩
    rw [(sortDesc_perm _).mem_iff]
    unfold groupPairs
    rw [List.mem_map]
    refine ⟨δ, ?_, rfl⟩
    unfold creditKeys
    rw [List.mem_dedup, List.mem_filterMap]
    exact ⟨r, List.mem_filter.mpr ⟨hr, by simpa using htyp⟩, hpd⟩

/-! ## The claims -/

/-- Claim C1: for every Transaction Set, the grand total exposed by the
daily aggregator (the sum of all Daily Summary entries) equals the sum
of `amount` over exactly those records whose direction is CREDIT and
whose date coerces successfully under the `%b %d, %Y` format; records
with uncoercible dates are excluded from the summary (the filter on the
right-hand side). -/
theorem claim_C1 (recs : List Rec) :
    total_received recs =
      ((recs.filter
        (fun r => r.typ = ("CREDIT".data) && (parseDate r.date).isSome)).map
          Rec.amount).sum :=
  total_received_eq recs

/-- Claim C2: the line `"Oct 30, 2025 Paid to John Doe CREDIT ₹1,500"`
produces exactly the record with date token `"Oct 30, 2025"` (which
coerces to the calendar date 2025-10-30), description
`"Paid to John Doe"`, direction CREDIT and amount 1500. -/
theorem claim_C2 :
    extractLine (("Oct 30, 2025 Paid to John Doe CREDIT ₹1,500".data)) =
      some { date := ("Oct 30, 2025".data), details := ("Paid to John Doe".data),
             typ := ("CREDIT".data), amount := 1500 } ∧
    parseDate (("Oct 30, 2025".data)) = some ⟨2025, 10, 30⟩ := by
  constructor
  · have h0 : extractLine (("Oct 30, 2025 Paid to John Doe CREDIT ₹1,500".data)) =
        some { date := ("Oct 30, 2025".data), details := ("Paid to John Doe".data),
               typ := ("CREDIT".data), amount := clean_amount (some ("1,500".data)) } := rfl
    have hval : clean_amount (some ("1,500".data)) = 1500 := by
      rw [clean_amount_digitComma (show ("1,500".data).all digitComma = true by decide),
        show keepDigitsDots ("1,500".data) = ("1500".data) from rfl,
        show digitsVal ("1500".data) = 1500 from rfl]
      norm_num
    rw [h0, hval]
  · decide

/-- Claim C3 as stated is false: the code's pattern requires exactly
TWO lowercase letters after the uppercase letter of the month
abbreviation (`[A-Z][a-z]{2}`), not three.  The line
`"Oct 30, 2025 Pay CREDIT ₹1"` produces a record although its date
token has only two lowercase letters, so it does not have the shape
demanded by the claim. -/
theorem claim_C3_counterexample :
    (extractLine (("Oct 30, 2025 Pay CREDIT ₹1".data))).isSome = true ∧
    ¬specDateShape3 (("Oct 30, 2025 Pay CREDIT ₹1".data)) := by
  constructor
  · decide
  · rintro ⟨c0, c1, c2, c3, c4, c5, c6, c7, c8, c9, ca, cb, cc, rest, heq,
      -, -, -, hl3, -, -, -, -, -, -, -, -, -⟩
    rw [show ("Oct 30, 2025 Pay CREDIT ₹1".data) =
      'O' :: 'c' :: 't' :: ' ' :: ('3' :: '0' :: ',' :: ' ' :: '2' :: '0' :: '2' :: '5' ::
        ' ' :: 'P' :: 'a' :: 'y' :: ' ' :: 'C' :: 'R' :: 'E' :: 'D' :: 'I' :: 'T' ::
        ' ' :: '₹' :: '1' :: []) from rfl] at heq
    simp only [List.cons.injEq] at heq
    obtain ⟨-, -, -, h3, -⟩ := heq
    rw [← h3] at hl3
    exact absurd hl3 (by decide)

/-- Claim C3 amended: a record is produced only if the leading date
token consists of one uppercase letter, exactly TWO lowercase letters,
one whitespace, exactly two day digits, a comma, one whitespace and
four year digits (followed by one whitespace); lines deviating from
this width are silently skipped.  Stated for ASCII lines (plus the
rupee sign), on which the embedding of the character classes is
exact. -/
theorem claim_C3 (line : List Char) (_hascii : asciiOk line) (r : Rec)
    (h : extractLine line = some r) : codeDateShape2 line := by
  unfold extractLine at h
  rcases hdt : dateTok12 line with _ | ⟨dTok, rest⟩
  · simp only [hdt] at h
    exact absurd h (by simp)
  · obtain ⟨c0, c1, c2, c3, c4, c5, c6, c7, c8, c9, ca, cb, cc, hline, hdtok, hconds⟩ :=
      dateTok12_some hdt
    exact ⟨c0, c1, c2, c3, c4, c5, c6, c7, c8, c9, ca, cb, cc, rest, hline, hconds⟩

/-- Witness for the amended C3 at a concrete matching line. -/
theorem claim_C3_witness : codeDateShape2 (("Oct 30, 2025 Pay CREDIT ₹1".data)) :=
  claim_C3 (("Oct 30, 2025 Pay CREDIT ₹1".data)) (by decide)
    { date := ("Oct 30, 2025".data), details := ("Pay".data), typ := ("CREDIT".data),
      amount := clean_amount (some ("1".data)) } rfl

/-- Claim C4 as stated is false: the description capture `(.*)` is
GREEDY, so when the direction token occurs more than once in a
grammar-consistent position, the description runs up to the LAST such
token, which becomes the direction.  On
`"Oct 30, 2025 A CREDIT B DEBIT ₹5"` the claim predicts description
`"A"` and direction CREDIT (the first token); the code produces
description `"A CREDIT B"` and direction DEBIT. -/
theorem claim_C4_counterexample :
    extractLine (("Oct 30, 2025 A CREDIT B DEBIT ₹5".data)) =
      some { date := ("Oct 30, 2025".data), details := ("A CREDIT B".data),
             typ := ("DEBIT".data), amount := clean_amount (some ("5".data)) } ∧
    ("DEBIT".data) ≠ ("CREDIT".data) ∧ ("A CREDIT B".data) ≠ ("A".data) :=
  ⟨rfl, by decide, by decide⟩

/-- Claim C4 amended: the description capture is greedy.  A matching
line splits as date token, one whitespace, description `D`, and a
direction-amount tail; among all grammar-consistent splits of the
remainder, the produced description is the LONGEST one, i.e. the
description extends to the last direction token that still admits a
full match, and that token becomes the record's direction. -/
theorem claim_C4 (line : List Char) (r : Rec) (h : extractLine line = some r) :
    ∃ dTok cc rest D s A,
      line = dTok ++ cc :: rest ∧ rest = D ++ s ∧ TailForm s r.typ A ∧
      r.details = stripWS D ∧
      ∀ D2 s2 T2 A2, rest = D2 ++ s2 → TailForm s2 T2 A2 → D2.length ≤ D.length := by
  obtain ⟨dTok, cc, rest, D, s, A, h1, h2, h3, h4, h5, h6, h7, h8, h9⟩ := extractLine_some h
  exact ⟨dTok, cc, rest, D, s, A, h1, h4, h5, h7, h9⟩

/-- Witness for the amended C4 at the two-direction-token line. -/
theorem claim_C4_witness :
    ∃ dTok cc rest D s A,
      ("Oct 30, 2025 A CREDIT B DEBIT ₹5".data) = dTok ++ cc :: rest ∧
      rest = D ++ s ∧ TailForm s ("DEBIT".data) A ∧
      ("A CREDIT B".data) = stripWS D ∧
      ∀ D2 s2 T2 A2, rest = D2 ++ s2 → TailForm s2 T2 A2 → D2.length ≤ D.length :=
  claim_C4 (("Oct 30, 2025 A CREDIT B DEBIT ₹5".data))
    { date := ("Oct 30, 2025".data), details := ("A CREDIT B".data),
      typ := ("DEBIT".data), amount := clean_amount (some ("5".data)) } rfl

/-- Claim C5: for every raw amount token that is null, empty, or whose
cleaned form (digits and dots only) is not a valid float literal, the
amount normalizer returns exactly 0.0; it is a total function, so it
never raises.  Stated for ASCII tokens, on which the embedding of
`\d` and of `float` is exact. -/
theorem claim_C5 (s : Option (List Char))
    (hascii : ∀ c ∈ s.getD [], c.toNat < 128)
    (hbad : s = none ∨ s = some [] ∨ floatOfClean (keepDigitsDots (s.getD [])) = none) :
    clean_amount s = 0 := by
  rcases hbad with rfl | rfl | hbad
  · rfl
  · rfl
  · rcases s with _ | t
    · rfl
    · simp only [Option.getD_some] at hbad
      simp only [clean_amount]
      by_cases ht : t = []
      · rw [if_pos ht]
      · rw [if_neg ht, hbad]

/-- Witness for C5 on a token that is empty after cleaning. -/
theorem claim_C5_witness : clean_amount (some ("abc".data)) = 0 :=
  claim_C5 (some ("abc".data)) (by decide) (Or.inr (Or.inr (by decide)))

/-- Claim C6: the Daily Summary has (i) entries pairwise strictly
descending by date, (ii) at most one entry per calendar date (the date
keys are nodup), (iii) exactly one entry for each distinct
successfully-coerced date among CREDIT records, and (iv) the exported
rows are exactly these entries with the date formatted `YYYY-MM-DD`. -/
theorem claim_C6 (recs : List Rec) :
    (dailySorted recs).Pairwise (fun a b => dkey b.1 < dkey a.1) ∧
    ((dailySorted recs).map Prod.fst).Nodup ∧
    (∀ δ : PDate, δ ∈ (dailySorted recs).map Prod.fst ↔
      ∃ r ∈ recs, r.typ = ("CREDIT".data) ∧ parseDate r.date = some δ) ∧
    daily_credits recs = (dailySorted recs).map (fun p => (fmtDate p.1, p.2)) := by
  refine ⟨dailySorted_pairwise recs, ?_, fun δ => dailySorted_mem_keys, rfl⟩
  have hp := dailySorted_pairwise recs
  have h2 : (dailySorted recs).Pairwise (fun a b => a.1 ≠ b.1) := by
    refine hp.imp ?_
    intro a b hlt he
    rw [he] at hlt
    exact lt_irrefl _ hlt
  have h3 : ((dailySorted recs).map Prod.fst).Pairwise (fun a b => a ≠ b) :=
    List.Pairwise.map Prod.fst (fun a b hab => hab) h2
  exact h3

/-- Claim C7: the Transaction Set lists the records in exactly the
top-to-bottom, page-ascending order of matching lines (the assembler
equals `filterMap` of the extractor over the concatenated line list —
no reordering, filtering or deduplication), and a page with no
extractable text contributes zero records without aborting. -/
theorem claim_C7 :
    (∀ pages : List (Option (List Char)),
      parse_phonepe_pdf pages = (pages.flatMap pageLines).filterMap extractLine) ∧
    (∀ pages : List (Option (List Char)),
      parse_phonepe_pdf (pages ++ [none]) = parse_phonepe_pdf pages ∧
      parse_phonepe_pdf (pages ++ [some []]) = parse_phonepe_pdf pages) := by
  refine ⟨parse_phonepe_pdf_eq, fun pages => ⟨?_, ?_⟩⟩
  · rw [parse_phonepe_pdf_eq, parse_phonepe_pdf_eq]
    simp [pageLines]
  · rw [parse_phonepe_pdf_eq, parse_phonepe_pdf_eq]
    simp [pageLines]

/-- Claim C8: an empty Transaction Set, or one with zero CREDIT
records, yields an empty Daily Summary (and grand total 0); for an
all-empty document (no pages, or only pages with no text) the parsed
set is empty and the caller's `df.empty` test fires the
"no transactions found" state instead of crashing. -/
theorem claim_C8 :
    daily_credits ([] : List Rec) = [] ∧ total_received ([] : List Rec) = 0 ∧
    (∀ recs : List Rec, (∀ r ∈ recs, r.typ ≠ ("CREDIT".data)) →
      daily_credits recs = []) ∧
    (∀ pages : List (Option (List Char)), (∀ p ∈ pages, p = none ∨ p = some []) →
      parse_phonepe_pdf pages = [] ∧ showsNoTransactions pages = true) := by
  have hflat : ∀ pages : List (Option (List Char)),
      (∀ p ∈ pages, p = none ∨ p = some []) → pages.flatMap pageLines = [] := by
    intro pages
    induction pages with
    | nil => intro _; rfl
    | cons p ps ih =>
      intro hp
      rw [List.flatMap_cons, ih (fun q hq => hp q (by simp [hq]))]
      rcases hp p (by simp) with rfl | rfl <;> rfl
  refine ⟨rfl, ?_, ?_, ?_⟩
  · rw [total_received_eq]
    rfl
  · intro recs hcred
    have hf : recs.filter (fun r => r.typ = ("CREDIT".data)) = [] := by
      rw [List.filter_eq_nil_iff]
      intro r hr
      simpa using hcred r hr
    unfold daily_credits dailySorted groupPairs creditKeys
    rw [hf]
    rfl
  · intro pages hp
    have h2 := hflat pages hp
    constructor
    · rw [parse_phonepe_pdf_eq, h2]
      rfl
    · unfold showsNoTransactions
      rw [parse_phonepe_pdf_eq, h2]
      rfl

/-- Witness for C8 on a concrete all-empty document. -/
theorem claim_C8_witness :
    parse_phonepe_pdf [none, some []] = [] ∧
    showsNoTransactions [none, some []] = true ∧
    daily_credits ([] : List Rec) = [] :=
  ⟨(claim_C8.2.2.2 [none, some []] (by decide)).1,
   (claim_C8.2.2.2 [none, some []] (by decide)).2,
   claim_C8.1⟩

/-- Claim C9: amounts are never negative — the normalizer returns a
non-negative value on every input (minus signs cannot survive the
cleaning, and the fallback is 0.0), hence every record produced by a
line match, and every record in the assembled Transaction Set, has
amount ≥ 0. -/
theorem claim_C9 :
    (∀ s : Option (List Char), 0 ≤ clean_amount s) ∧
    (∀ (line : List Char) (r : Rec), extractLine line = some r → 0 ≤ r.amount) ∧
    (∀ (pages : List (Option (List Char))) (r : Rec),
      r ∈ parse_phonepe_pdf pages → 0 ≤ r.amount) := by
  have hline : ∀ (line : List Char) (r : Rec), extractLine line = some r → 0 ≤ r.amount := by
    intro line r h
    obtain ⟨_, _, _, _, _, A, _, _, _, _, _, _, _, hamt, _⟩ := extractLine_some h
    rw [hamt]
    exact clean_amount_nonneg _
  refine ⟨clean_amount_nonneg, hline, ?_⟩
  intro pages r h
  rw [parse_phonepe_pdf_eq, List.mem_filterMap] at h
  obtain ⟨line, _, hr⟩ := h
  exact hline line r hr

/-- Witness for C9 at a concrete record of a parsed page. -/
theorem claim_C9_witness :
    (0 : ℚ) ≤ clean_amount none ∧
    0 ≤ Rec.amount { date := ("Oct 30, 2025".data), details := ("Paid to John Doe".data),
                     typ := ("CREDIT".data),
                     amount := clean_amount (some ("1,500".data)) } ∧
    0 ≤ Rec.amount { date := ("Oct 30, 2025".data), details := ("Paid to John Doe".data),
                     typ := ("CREDIT".data),
                     amount := clean_amount (some ("1,500".data)) } :=
  ⟨claim_C9.1 none,
   claim_C9.2.1 (("Oct 30, 2025 Paid to John Doe CREDIT ₹1,500".data)) _ rfl,
   claim_C9.2.2 [some (("Oct 30, 2025 Paid to John Doe CREDIT ₹1,500".data))]
     { date := ("Oct 30, 2025".data), details := ("Paid to John Doe".data),
       typ := ("CREDIT".data), amount := clean_amount (some ("1,500".data)) }
     (by
       rw [show parse_phonepe_pdf [some (("Oct 30, 2025 Paid to John Doe CREDIT ₹1,500".data))] =
         [{ date := ("Oct 30, 2025".data), details := ("Paid to John Doe".data),
            typ := ("CREDIT".data), amount := clean_amount (some ("1,500".data)) }] from rfl]
       exact List.mem_singleton.mpr rfl)⟩

/-- Claim C10: the amount capture admits only digits and commas, so
after normalization every record produced by the line extractor has an
integer-valued amount (the degenerate all-comma capture normalizes to
0). -/
theorem claim_C10 (line : List Char) (r : Rec) (h : extractLine line = some r) :
    ∃ n : ℕ, r.amount = (n : ℚ) := by
  obtain ⟨_, _, _, _, _, A, _, _, _, _, hform, _, _, hamt, _⟩ := extractLine_some h
  obtain ⟨w1, w2, _, _, _, _, _, _, _, hA⟩ := hform
  refine ⟨digitsVal (keepDigitsDots A), ?_⟩
  rw [hamt]
  exact clean_amount_digitComma hA

/-- Witness for C10 at a concrete matching line. -/
theorem claim_C10_witness :
    ∃ n : ℕ,
      Rec.amount { date := ("Oct 30, 2025".data), details := ("Paid to John Doe".data),
                   typ := ("CREDIT".data),
                   amount := clean_amount (some ("1,500".data)) } = (n : ℚ) :=
  claim_C10 (("Oct 30, 2025 Paid to John Doe CREDIT ₹1,500".data))
    { date := ("Oct 30, 2025".data), details := ("Paid to John Doe".data),
      typ := ("CREDIT".data), amount := clean_amount (some ("1,500".data)) } rfl
